import Mathlib

/-!
Verification development for the cluster core of the nanos6-cluster-dlb
runtime.  The definitions below are shallow embeddings of the C++ sources:
pure computations become Lean functions, object state becomes explicit
state records, failed `assert`s and undefined behaviour become `Option`
failures.  Addresses are modelled as natural numbers.
-/

set_option autoImplicit false

namespace Nanos6

/-! ### Memory regions

Modelled from the spec: `DataAccessRegion` is not under `src/`; the spec
describes a region as a half-open byte interval [start, end) in the
cluster virtual address space, with interval intersection and interval
containment. -/

/-- A half-open byte interval [startAddr, endAddr). -/
structure Region where
  startAddr : Nat
  endAddr : Nat
deriving DecidableEq, Repr

/-- Size in bytes of a region (`getSize`). -/
def Region.size (r : Region) : Nat := r.endAddr - r.startAddr

/-- Modelled from the spec: interval intersection (`DataAccessRegion::intersect`). -/
def Region.intersect (a b : Region) : Region :=
  ⟨max a.startAddr b.startAddr, min a.endAddr b.endAddr⟩

/-- Modelled from the spec: interval containment (`DataAccessRegion::fullyContainedIn`). -/
def Region.fullyContainedIn (a b : Region) : Bool :=
  decide (b.startAddr ≤ a.startAddr) && decide (a.endAddr ≤ b.endAddr)

/-! ### Memory places and accesses

Modelled from the spec: `MemoryPlace` is not under `src/`; a memory place
is either the directory sentinel or a (cluster) node, and the node id of a
location is the index of the owning node. -/

/-- A memory place: either the directory sentinel or a cluster node. -/
inductive MemoryPlace where
  | directory
  | node (idx : Nat)
deriving DecidableEq, Repr

/-- Whether the place is the directory sentinel (`isDirectoryMemoryPlace`). -/
def MemoryPlace.isDirectoryMemoryPlace : MemoryPlace → Bool
  | .directory => true
  | .node _ => false

/-- Modelled from the spec: `getNodeIdForLocation` maps a cluster memory
place to the index of the owning node. -/
def getNodeIdForLocation : MemoryPlace → Nat
  | .directory => 0
  | .node i => i

/-- A directory entry as returned by `Directory::find`: a sub-region and its
home node. -/
structure HomeMapEntry where
  region : Region
  homeNode : MemoryPlace
deriving DecidableEq, Repr

/-- The part of a `DataAccess` inspected by the locality scheduler:
its region, its recorded location (null modelled as `none`) and its
weak flag. -/
structure DataAccess where
  region : Region
  location : Option MemoryPlace
  weak : Bool
deriving DecidableEq, Repr

/-! ### ClusterLocalityScheduler::getScheduledNode
Embedding of `src/scheduling/schedulers/cluster/ClusterLocalityScheduler.cpp`.
The directory `find` and the `isClusterMemory` predicate are parameters of
the embedding.  `bytes[nodeId] += v` with an out-of-range id is undefined
behaviour in the source and is modelled as `none`, as is a failed `assert`. -/

/-- `bytes[i] += v`, failing when `i` is out of range. -/
def addBytes (bytes : List Nat) (i v : Nat) : Option (List Nat) :=
  if h : i < bytes.length then some (bytes.set i (bytes.get ⟨i, h⟩ + v)) else none

/-- The loop over the `HomeNodesArray` returned by `Directory::find`:
credit each entry's intersection with the access region to the entry's
home node. -/
def addHomeBytes (region : Region) : List HomeMapEntry → List Nat → Option (List Nat)
  | [], bytes => some bytes
  | e :: rest, bytes =>
    match addBytes bytes (getNodeIdForLocation e.homeNode) (Region.size (region.intersect e.region)) with
    | none => none
    | some bytes2 => addHomeBytes region rest bytes2

/-- Body of the per-access lambda after the location has been resolved:
the cluster-memory check, then the directory/location split.  Returns the
updated byte vector and the value the lambda returns (`false` stops the
iteration and clears `canBeOffloaded`). -/
def processLocated (isClusterMemory : Region → Bool) (find : Region → List HomeMapEntry)
    (location : MemoryPlace) (region : Region) (bytes : List Nat) :
    Option (List Nat × Bool) :=
  if !isClusterMemory region then some (bytes, false)
  else match location with
    | .directory => (addHomeBytes region (find region) bytes).map (fun b => (b, true))
    | .node i => (addBytes bytes (getNodeIdForLocation (.node i)) region.size).map (fun b => (b, true))

/-- The per-access lambda of `getScheduledNode`: a null location asserts
`access->isWeak()` and is replaced by the directory sentinel. -/
def processAccess (isClusterMemory : Region → Bool) (find : Region → List HomeMapEntry)
    (access : DataAccess) (bytes : List Nat) : Option (List Nat × Bool) :=
  match access.location with
  | none =>
    if access.weak then processLocated isClusterMemory find .directory access.region bytes
    else none
  | some loc => processLocated isClusterMemory find loc access.region bytes

/-- `DataAccessRegistration::processAllDataAccesses`: iterate the accesses,
stopping as soon as the lambda returns `false`. -/
def scanAccesses (isClusterMemory : Region → Bool) (find : Region → List HomeMapEntry) :
    List DataAccess → List Nat → Option (List Nat × Bool)
  | [], bytes => some (bytes, true)
  | a :: rest, bytes =>
    match processAccess isClusterMemory find a bytes with
    | none => none
    | some (bytes2, false) => some (bytes2, false)
    | some (bytes2, true) => scanAccesses isClusterMemory find rest bytes2

/-- `std::max_element` over a byte vector: index and value of the first
maximum (an element is replaced only by a strictly greater one). -/
def maxElementIdx : List Nat → Nat × Nat
  | [] => (0, 0)
  | x :: xs =>
    match xs with
    | [] => (0, x)
    | _ :: _ =>
      let p := maxElementIdx xs
      if p.2 > x then (p.1 + 1, p.2) else (0, x)

/-- Result of `getScheduledNode`: either the sentinel
`nanos6_cluster_no_offload` or a node index. -/
inductive SchedResult where
  | noOffload
  | node (idx : Nat)
deriving DecidableEq, Repr

/-- Embedding of `ClusterLocalityScheduler::getScheduledNode`. -/
def getScheduledNode (clusterSize : Nat) (isClusterMemory : Region → Bool)
    (find : Region → List HomeMapEntry) (accesses : List DataAccess) :
    Option SchedResult :=
  match scanAccesses isClusterMemory find accesses (List.replicate clusterSize 0) with
  | none => none
  | some (_, false) => some .noOffload
  | some (bytes, true) =>
    if bytes.isEmpty then none
    else some (.node (maxElementIdx bytes).1)

/-! ### Specification-side score
The claim describes the per-node score as a sum over the task's accesses;
these definitions follow the spec's words, for comparison with the
embedding above. -/

/-- The location the scheduler effectively scores an access at: a null
location is treated as the directory sentinel. -/
def effectiveLocation (a : DataAccess) : MemoryPlace :=
  a.location.getD .directory

/-- Per-access contribution to node `n`'s score, as the spec states it:
directory-located accesses are split into home-node partitions, others
credit the full region size to the owning node. -/
def accessScore (find : Region → List HomeMapEntry) (n : Nat) (a : DataAccess) : Nat :=
  match effectiveLocation a with
  | .directory =>
    ((find a.region).map (fun e =>
      if getNodeIdForLocation e.homeNode = n then Region.size (a.region.intersect e.region) else 0)).sum
  | .node i => if getNodeIdForLocation (.node i) = n then a.region.size else 0

/-- The spec's per-node byte score of a task: sum over all accesses. -/
def specNodeScore (find : Region → List HomeMapEntry) (accesses : List DataAccess) (n : Nat) : Nat :=
  (accesses.map (accessScore find n)).sum

/-- All node ids an access can credit bytes to are below the cluster size. -/
def accessIdsBounded (find : Region → List HomeMapEntry) (clusterSize : Nat) (a : DataAccess) : Bool :=
  match effectiveLocation a with
  | .directory => (find a.region).all (fun e => decide (getNodeIdForLocation e.homeNode < clusterSize))
  | .node i => decide (getNodeIdForLocation (.node i) < clusterSize)

/-! ### ClusterDataLinkStep
Embedding of `ClusterDataLinkStep::linkRegion` and `ClusterDataLinkStep::start`
from `src/executors/workflow/cluster/ExecutionWorkflowCluster.cpp`.
Only the state manipulated by the two lock-guarded branches is modelled:
`_bytesToLink` (a `size_t`, so arithmetic is modulo 2^64), `_started`,
the `_read`/`_write` flags and region size fixed at construction, and
whether `delete this` has run. -/

/-- Modulus of the C++ `size_t` type. -/
def sizeTMod : Nat := 2 ^ 64

/-- The mutable state of a `ClusterDataLinkStep`. -/
structure LinkStepState where
  bytesToLink : Nat
  started : Bool
  read : Bool
  write : Bool
  regionSize : Nat
  deleted : Bool
deriving DecidableEq, Repr

/-- Embedding of `ClusterDataLinkStep::linkRegion` for one access of the
given region size and read/write satisfiability.  The second component is
the local `deleteStep` flag the source computes; the `delete this` that
would act on it is commented out in the source, so `deleted` is returned
unchanged. -/
def linkRegion (read write : Bool) (regionSize : Nat) (s : LinkStepState) :
    LinkStepState × Bool :=
  let linkedBytes :=
    if read && write then (regionSize % sizeTMod * 2) % sizeTMod else regionSize % sizeTMod
  let b := (s.bytesToLink + (sizeTMod - linkedBytes)) % sizeTMod
  let deleteStep := s.started && decide (b = 0)
  ({ s with bytesToLink := b }, deleteStep)

/-- Embedding of `ClusterDataLinkStep::start`: when the step was created
with both read and write satisfiability it releases its successors and
deletes itself; otherwise it subtracts the bytes linked now, marks the
step started and leaves deletion to `linkRegion`. -/
def linkStepStart (s : LinkStepState) : LinkStepState :=
  if s.read && s.write then { s with deleted := true }
  else
    { s with
      bytesToLink := (s.bytesToLink + (sizeTMod - s.regionSize % sizeTMod)) % sizeTMod,
      started := true }

/-! ### ClusterDataCopyStep
Embedding of `ClusterDataCopyStep::requiresDataFetch` and of the
fragmentation loop in the `ClusterDataCopyStep` constructor, from
`src/executors/workflow/cluster/ExecutionWorkflowCluster.cpp`. -/

/-- An entry of the pending-transfer queue: its region and the index of
its target node. -/
structure PendingTransfer where
  region : Region
  targetIdx : Nat
deriving DecidableEq, Repr

/-- The fields of a `ClusterDataCopyStep` inspected by `requiresDataFetch`. -/
structure CopyStepState where
  fullRegion : Region
  targetIdx : Nat
  needsTransfer : Bool
  registerLocation : Bool
deriving DecidableEq, Repr

/-- What `requiresDataFetch` did: the location update it performed (region
and node index passed to `updateTaskDataAccessLocation`), whether it
released the step's successors, whether it destroyed the step, the queue
index of the pending transfer it registered a completion callback on (if
any), and its boolean return value (`true` means the caller must issue the
fetch). -/
structure FetchOutcome where
  locationUpdate : Option (Region × Nat)
  releasedSuccessors : Bool
  deletedStep : Bool
  callbackOn : Option Nat
  result : Bool
deriving DecidableEq, Repr

/-- What the completion callback registered on a pending transfer does
when that transfer completes, embedded from the lambda passed to
`addCompletionCallback`: update the access location of the full region to
the target node, release the successors and destroy the step. -/
structure CallbackEffect where
  locationUpdate : Option (Region × Nat)
  releasesSuccessors : Bool
  deletesStep : Bool
deriving DecidableEq, Repr

/-- The completion callback `requiresDataFetch` registers for a copy step. -/
def registeredCopyCallback (s : CopyStepState) : CallbackEffect :=
  { locationUpdate := some (s.fullRegion, s.targetIdx),
    releasesSuccessors := true,
    deletesStep := true }

/-- Modelled from the spec: `PendingQueue::checkPendingQueue` is not under
`src/`; per the spec it scans the queue under lock, invoking the predicate
on each entry, and stops as soon as the predicate returns true.  The
embedding returns the index of the first entry accepted by the predicate
(`none` when no entry is accepted). -/
def checkPendingQueue (pred : PendingTransfer → Bool) : List PendingTransfer → Option Nat
  | [] => none
  | dt :: rest =>
    if pred dt then some 0 else (checkPendingQueue pred rest).map (· + 1)

/-- The predicate `requiresDataFetch` scans the pending queue with: the
pending transfer has the same target node and fully contains the step's
full region. -/
def pendingMatches (s : CopyStepState) (dt : PendingTransfer) : Bool :=
  dt.targetIdx == s.targetIdx && s.fullRegion.fullyContainedIn dt.region

/-- Embedding of `ClusterDataCopyStep::requiresDataFetch`.  `writeIDLocal`
is the result of `WriteIDManager::checkWriteIDLocal(_writeID, _fullRegion)`
and `pending` is the current pending-transfer queue. -/
def requiresDataFetch (writeIDLocal : Bool) (pending : List PendingTransfer)
    (s : CopyStepState) : FetchOutcome :=
  let lateWriteID := s.needsTransfer && writeIDLocal
  let locUpd : Option (Region × Nat) :=
    if s.registerLocation || lateWriteID then some (s.fullRegion, s.targetIdx) else none
  if !s.needsTransfer || lateWriteID then
    { locationUpdate := locUpd, releasedSuccessors := true, deletedStep := true,
      callbackOn := none, result := false }
  else
    match checkPendingQueue (pendingMatches s) pending with
    | some i =>
      { locationUpdate := locUpd, releasedSuccessors := false, deletedStep := false,
        callbackOn := some i, result := false }
    | none =>
      { locationUpdate := locUpd, releasedSuccessors := false, deletedStep := false,
        callbackOn := none, result := true }

/-- The fragmentation loop of the `ClusterDataCopyStep` constructor: cut
`[start, stop)` into consecutive chunks of at most `maxSize` bytes.  The
fuel bounds the number of iterations; it is never exhausted when
`maxSize > 0` (each iteration advances `start` by at least one byte), and
with `maxSize = 0` the C++ loop would not terminate at all. -/
def fragmentLoop : Nat → Nat → Nat → Nat → List Region
  | 0, _, _, _ => []
  | fuel + 1, start, stop, maxSize =>
    if start < stop then
      (⟨start, if stop - start > maxSize then start + maxSize else stop⟩ : Region) ::
        fragmentLoop fuel (if stop - start > maxSize then start + maxSize else stop) stop maxSize
    else []

/-- `_regionsFragments` as computed by the `ClusterDataCopyStep`
constructor for a region, with `maxSize = ClusterManager::getMessageMaxSize()`. -/
def fragmentRegion (r : Region) (maxSize : Nat) : List Region :=
  fragmentLoop r.size r.startAddr r.endAddr maxSize

/-- Whether a list of regions tiles the interval `[start, stop)` exactly:
consecutive, gap-free, starting at `start` and ending at `stop`. -/
def tiles : Nat → Nat → List Region → Bool
  | start, stop, [] => start == stop
  | start, stop, r :: rest => r.startAddr == start && tiles r.endAddr stop rest

/-! ### ClusterManager::setEarlyRelease
Embedding of the switch in `src/cluster/ClusterManager.cpp`.  The `Task`
delayed-release setters are not under `src/` and are modelled from the
spec. -/

/-- Modelled from the spec: a task's delayed-release discipline is one of
no-wait, autowait (non-local only) and wait. -/
inductive ReleasePolicy where
  | noWait
  | autowait
  | wait
deriving DecidableEq, Repr

/-- Modelled from the spec: `Task::setDelayedRelease(b)` selects wait when
`b` is true and no-wait otherwise. -/
def setDelayedRelease (b : Bool) : ReleasePolicy :=
  if b then .wait else .noWait

/-- Modelled from the spec: `Task::setDelayedNonLocalRelease` is not under
`src/`; per the spec, `cluster.disable_autowait` forces autowait to
no-wait, and otherwise the task gets the autowait discipline. -/
def setDelayedNonLocalRelease (disableAutowait : Bool) : ReleasePolicy :=
  if disableAutowait then setDelayedRelease false else .autowait

/-- The `nanos6_early_release_t` argument of `setEarlyRelease`. -/
inductive EarlyReleaseMode where
  | noWait
  | autowait
  | wait
deriving DecidableEq, Repr

/-- Embedding of `ClusterManager::setEarlyRelease`: dispatch on the
requested mode. -/
def setEarlyRelease (disableAutowait : Bool) : EarlyReleaseMode → ReleasePolicy
  | .noWait => setDelayedRelease false
  | .autowait => setDelayedNonLocalRelease disableAutowait
  | .wait => setDelayedRelease true

/-! ### ClusterManager construction
Embedding of `ClusterManager::initialize` and the two constructors from
`src/cluster/ClusterManager.cpp`. -/

/-- A cluster node: runtime index and communicator index. -/
structure ClusterNode where
  index : Nat
  commIndex : Nat
deriving DecidableEq, Repr

/-- The node registry part of `ClusterManager`'s state. -/
structure ClusterManagerState where
  clusterNodes : List ClusterNode
  thisNodeIdx : Nat
  masterNodeIdx : Nat
deriving DecidableEq, Repr

/-- The default `ClusterManager` constructor (no messenger): one node with
both indices 0, which is this node and the master node. -/
def clusterManagerSingle : ClusterManagerState :=
  { clusterNodes := [⟨0, 0⟩], thisNodeIdx := 0, masterNodeIdx := 0 }

/-- What the messenger reports to the communicator-backed constructor. -/
structure MessengerInfo where
  clusterSize : Nat
  nodeIndex : Nat
  masterIndex : Nat
deriving DecidableEq, Repr

/-- The communicator-backed `ClusterManager` constructor: one node per
rank, this node and the master as reported by the messenger. -/
def clusterManagerWithComm (msn : MessengerInfo) : ClusterManagerState :=
  { clusterNodes := (List.range msn.clusterSize).map (fun i => ⟨i, i⟩),
    thisNodeIdx := msn.nodeIndex,
    masterNodeIdx := msn.masterIndex }

/-- `ClusterManager::clusterSize()`. -/
def ClusterManagerState.clusterSize (s : ClusterManagerState) : Nat :=
  s.clusterNodes.length

/-- Modelled from the spec: `inClusterMode()` is cluster size > 1 (the
header defining it is not under `src/`). -/
def ClusterManagerState.inClusterMode (s : ClusterManagerState) : Bool :=
  decide (1 < s.clusterNodes.length)

/-- Embedding of `ClusterManager::initialize`: a communicator type other
than "disabled" selects the communicator-backed constructor, otherwise the
single-node constructor. -/
def clusterManagerInit (commType : String) (msn : MessengerInfo) : ClusterManagerState :=
  if commType ≠ "disabled" then clusterManagerWithComm msn else clusterManagerSingle

/-! ### ObjectCache
Embedding of `src/memory/allocator/pool/ObjectCache.hpp`.  Each
`CPUObjectCache` is represented by its allocation counter (`getCounter`,
the net number of objects allocated through that cache; the class itself
is not under `src/`).  `cpu` is the compute place of the current worker
thread, `none` when the calling thread is not a worker. -/

/-- The counters of an `ObjectCache`: one per CPU cache plus the external
object cache. -/
structure ObjectCacheState where
  cpuCounters : List Nat
  externalCounter : Nat
deriving DecidableEq, Repr

/-- Embedding of `ObjectCache::newObject`: allocate through the current
CPU's cache, or through the external object cache when the calling thread
is not a worker. -/
def ObjectCacheState.newObject (cpu : Option Nat) (s : ObjectCacheState) : ObjectCacheState :=
  match cpu with
  | none => { s with externalCounter := s.externalCounter + 1 }
  | some i => { s with cpuCounters := s.cpuCounters.set i (s.cpuCounters.getD i 0 + 1) }

/-- Embedding of `ObjectCache::deleteObject`: return the object to the
current CPU's cache, or to the external object cache when the calling
thread is not a worker. -/
def ObjectCacheState.deleteObject (cpu : Option Nat) (s : ObjectCacheState) : ObjectCacheState :=
  match cpu with
  | none => { s with externalCounter := s.externalCounter - 1 }
  | some i => { s with cpuCounters := s.cpuCounters.set i (s.cpuCounters.getD i 0 - 1) }

/-- Embedding of `ObjectCache::getNumObject`: the sum of the per-CPU cache
counters. -/
def ObjectCacheState.getNumObject (s : ObjectCacheState) : Nat :=
  s.cpuCounters.sum

/-! ### Auxiliary definitions used by the statements and proofs -/

/-- Element `n` of a byte vector, 0 out of range. -/
def nth (l : List Nat) (n : Nat) : Nat := l.getD n 0

/-- Sum of `f` over `0, …, cs - 1`. -/
def rangeSum (cs : Nat) (f : Nat → Nat) : Nat := ((List.range cs).map f).sum

/-- The bytes a directory entry list credits to node `n` for a region. -/
def entriesScore (region : Region) (entries : List HomeMapEntry) (n : Nat) : Nat :=
  (entries.map (fun e =>
    if getNodeIdForLocation e.homeNode = n then Region.size (region.intersect e.region) else 0)).sum

/-! ### Lemmas about byte vectors -/

theorem nth_cons_succ (x : Nat) (l : List Nat) (n : Nat) : nth (x :: l) (n + 1) = nth l n := rfl

theorem nth_replicate (cs n : Nat) : nth (List.replicate cs 0) n = 0 := by
  induction cs generalizing n with
  | zero => cases n <;> rfl
  | succ k ih =>
    rw [List.replicate_succ]
    cases n with
    | zero => rfl
    | succ m => rw [nth_cons_succ]; exact ih m

theorem nth_set (l : List Nat) (i n v : Nat) (hi : i < l.length) :
    nth (l.set i v) n = if i = n then v else nth l n := by
  induction l generalizing i n with
  | nil => simp at hi
  | cons x xs ih =>
    cases i with
    | zero =>
      cases n with
      | zero => rfl
      | succ m => rfl
    | succ j =>
      cases n with
      | zero => rfl
      | succ m =>
        show nth (x :: xs.set j v) (m + 1) = _
        rw [nth_cons_succ, nth_cons_succ, ih j m (by simpa using hi)]
        by_cases hjm : j = m
        · simp [hjm]
        · simp [hjm, fun h => hjm (Nat.succ_injective h)]

theorem rangeSum_succ (cs : Nat) (f : Nat → Nat) :
    rangeSum (cs + 1) f = rangeSum cs f + f cs := by
  simp [rangeSum, List.range_succ]

theorem rangeSum_add (cs : Nat) (f g : Nat → Nat) :
    rangeSum cs (fun n => f n + g n) = rangeSum cs f + rangeSum cs g := by
  induction cs with
  | zero => rfl
  | succ k ih => rw [rangeSum_succ, rangeSum_succ, rangeSum_succ, ih]; omega

theorem rangeSum_congr (cs : Nat) (f g : Nat → Nat) (h : ∀ n < cs, f n = g n) :
    rangeSum cs f = rangeSum cs g := by
  induction cs with
  | zero => rfl
  | succ k ih =>
    rw [rangeSum_succ, rangeSum_succ, ih (fun n hn => h n (Nat.lt_succ_of_lt hn)),
      h k (Nat.lt_succ_self k)]

theorem rangeSum_const_zero (cs : Nat) : rangeSum cs (fun _ => 0) = 0 := by
  induction cs with
  | zero => rfl
  | succ k ih => rw [rangeSum_succ, ih]

theorem rangeSum_single (cs i v : Nat) (h : i < cs) :
    rangeSum cs (fun n => if i = n then v else 0) = v := by
  induction cs with
  | zero => exact absurd h (Nat.not_lt_zero i)
  | succ k ih =>
    rw [rangeSum_succ]
    by_cases hik : i = k
    · have h0 : rangeSum k (fun n => if i = n then v else 0) = 0 := by
        rw [rangeSum_congr k _ (fun _ => 0) (fun n hn => by rw [if_neg (by omega)]),
          rangeSum_const_zero]
      rw [h0, if_pos hik]
      omega
    · have hik2 : i < k := Nat.lt_of_le_of_ne (Nat.le_of_lt_succ h) hik
      simp [hik, ih hik2]

/-! ### Lemmas about the locality-scheduler byte accumulation -/

theorem addBytes_spec (bytes bytes2 : List Nat) (i v : Nat)
    (h : addBytes bytes i v = some bytes2) :
    bytes2.length = bytes.length ∧
    ∀ n, nth bytes2 n = nth bytes n + (if i = n then v else 0) := by
  unfold addBytes at h
  split at h
  case isTrue hi =>
    cases h
    refine ⟨by simp, fun n => ?_⟩
    rw [nth_set _ _ _ _ hi]
    by_cases hin : i = n
    · subst hin
      have hg : nth bytes i = bytes[i] := List.getD_eq_getElem bytes 0 hi
      simp [hg]
    · simp [hin]
  case isFalse => cases h

theorem addBytes_isSome (bytes : List Nat) (i v : Nat) (hi : i < bytes.length) :
    ∃ bytes2, addBytes bytes i v = some bytes2 := by
  unfold addBytes
  rw [dif_pos hi]
  exact ⟨_, rfl⟩

theorem entriesScore_cons (region : Region) (e : HomeMapEntry) (rest : List HomeMapEntry) (n : Nat) :
    entriesScore region (e :: rest) n =
      (if getNodeIdForLocation e.homeNode = n then Region.size (region.intersect e.region) else 0) +
        entriesScore region rest n := by
  simp [entriesScore]

theorem addHomeBytes_spec (region : Region) (entries : List HomeMapEntry) (bytes : List Nat)
    (hb : ∀ e ∈ entries, getNodeIdForLocation e.homeNode < bytes.length) :
    ∃ bytes2, addHomeBytes region entries bytes = some bytes2 ∧
      bytes2.length = bytes.length ∧
      ∀ n, nth bytes2 n = nth bytes n + entriesScore region entries n := by
  induction entries generalizing bytes with
  | nil => exact ⟨bytes, rfl, rfl, fun n => by simp [entriesScore]⟩
  | cons e rest ih =>
    have hi : getNodeIdForLocation e.homeNode < bytes.length :=
      hb e (List.mem_cons_self e rest)
    obtain ⟨b1, hb1⟩ := addBytes_isSome bytes (getNodeIdForLocation e.homeNode)
      (Region.size (region.intersect e.region)) hi
    obtain ⟨hlen1, hnth1⟩ := addBytes_spec _ _ _ _ hb1
    obtain ⟨b2, hb2, hlen2, hnth2⟩ := ih b1
      (fun e2 he2 => hlen1 ▸ hb e2 (List.mem_cons_of_mem e he2))
    refine ⟨b2, ?_, by rw [hlen2, hlen1], fun n => ?_⟩
    · unfold addHomeBytes
      rw [hb1]
      exact hb2
    · rw [hnth2 n, hnth1 n, entriesScore_cons]
      omega

theorem processLocated_directory_spec (isC : Region → Bool) (find : Region → List HomeMapEntry)
    (region : Region) (bytes : List Nat) (hc : isC region = true)
    (hb : ∀ e ∈ find region, getNodeIdForLocation e.homeNode < bytes.length) :
    ∃ bytes2, processLocated isC find .directory region bytes = some (bytes2, true) ∧
      bytes2.length = bytes.length ∧
      ∀ n, nth bytes2 n = nth bytes n + entriesScore region (find region) n := by
  obtain ⟨bytes2, h2, hlen, hnth⟩ := addHomeBytes_spec region (find region) bytes hb
  exact ⟨bytes2, by simp [processLocated, hc, h2], hlen, hnth⟩

theorem processLocated_node_spec (isC : Region → Bool) (find : Region → List HomeMapEntry)
    (i : Nat) (region : Region) (bytes : List Nat) (hc : isC region = true)
    (hi : i < bytes.length) :
    ∃ bytes2, processLocated isC find (.node i) region bytes = some (bytes2, true) ∧
      bytes2.length = bytes.length ∧
      ∀ n, nth bytes2 n = nth bytes n + (if i = n then region.size else 0) := by
  obtain ⟨bytes2, h2⟩ := addBytes_isSome bytes i region.size hi
  obtain ⟨hlen, hnth⟩ := addBytes_spec _ _ _ _ h2
  refine ⟨bytes2, ?_, hlen, hnth⟩
  simp [processLocated, hc, getNodeIdForLocation, h2]

theorem processLocated_notCluster (isC : Region → Bool) (find : Region → List HomeMapEntry)
    (loc : MemoryPlace) (region : Region) (bytes : List Nat) (hc : isC region = false) :
    processLocated isC find loc region bytes = some (bytes, false) := by
  simp [processLocated, hc]

theorem processAccess_spec (isC : Region → Bool) (find : Region → List HomeMapEntry)
    (a : DataAccess) (bytes : List Nat) (hc : isC a.region = true)
    (hw : a.location = none → a.weak = true)
    (hbnd : accessIdsBounded find bytes.length a = true) :
    ∃ bytes2, processAccess isC find a bytes = some (bytes2, true) ∧
      bytes2.length = bytes.length ∧
      ∀ n, nth bytes2 n = nth bytes n + accessScore find n a := by
  cases hloc : a.location with
  | none =>
    have hwk := hw hloc
    have heff : effectiveLocation a = .directory := by simp [effectiveLocation, hloc]
    have hb : ∀ e ∈ find a.region, getNodeIdForLocation e.homeNode < bytes.length := by
      intro e he
      have := hbnd
      unfold accessIdsBounded at this
      rw [heff] at this
      simpa using List.all_eq_true.mp this e he
    obtain ⟨bytes2, h2, hlen, hnth⟩ := processLocated_directory_spec isC find a.region bytes hc hb
    refine ⟨bytes2, ?_, hlen, fun n => ?_⟩
    · simp [processAccess, hloc, hwk, h2]
    · rw [hnth n]
      unfold accessScore
      rw [heff]
      rfl
  | some loc =>
    have heff : effectiveLocation a = loc := by simp [effectiveLocation, hloc]
    cases loc with
    | directory =>
      have hb : ∀ e ∈ find a.region, getNodeIdForLocation e.homeNode < bytes.length := by
        intro e he
        have := hbnd
        unfold accessIdsBounded at this
        rw [heff] at this
        simpa using List.all_eq_true.mp this e he
      obtain ⟨bytes2, h2, hlen, hnth⟩ := processLocated_directory_spec isC find a.region bytes hc hb
      refine ⟨bytes2, ?_, hlen, fun n => ?_⟩
      · simp [processAccess, hloc, h2]
      · rw [hnth n]
        unfold accessScore
        rw [heff]
        rfl
    | node i =>
      have hi : i < bytes.length := by
        have := hbnd
        unfold accessIdsBounded at this
        rw [heff] at this
        simpa [getNodeIdForLocation] using this
      obtain ⟨bytes2, h2, hlen, hnth⟩ := processLocated_node_spec isC find i a.region bytes hc hi
      refine ⟨bytes2, ?_, hlen, fun n => ?_⟩
      · simp [processAccess, hloc, h2]
      · rw [hnth n]
        unfold accessScore
        rw [heff]
        simp [getNodeIdForLocation]

theorem processAccess_notCluster (isC : Region → Bool) (find : Region → List HomeMapEntry)
    (a : DataAccess) (bytes : List Nat) (hc : isC a.region = false)
    (hw : a.location = none → a.weak = true) :
    processAccess isC find a bytes = some (bytes, false) := by
  cases hloc : a.location with
  | none => simp [processAccess, hloc, hw hloc, processLocated_notCluster _ _ _ _ _ hc]
  | some loc => simp [processAccess, hloc, processLocated_notCluster _ _ _ _ _ hc]

theorem specNodeScore_cons (find : Region → List HomeMapEntry) (a : DataAccess)
    (rest : List DataAccess) (n : Nat) :
    specNodeScore find (a :: rest) n = accessScore find n a + specNodeScore find rest n := by
  simp [specNodeScore]

theorem scanAccesses_spec (isC : Region → Bool) (find : Region → List HomeMapEntry)
    (accesses : List DataAccess) (bytes : List Nat)
    (hc : ∀ a ∈ accesses, isC a.region = true)
    (hw : ∀ a ∈ accesses, a.location = none → a.weak = true)
    (hbnd : ∀ a ∈ accesses, accessIdsBounded find bytes.length a = true) :
    ∃ bytes2, scanAccesses isC find accesses bytes = some (bytes2, true) ∧
      bytes2.length = bytes.length ∧
      ∀ n, nth bytes2 n = nth bytes n + specNodeScore find accesses n := by
  induction accesses generalizing bytes with
  | nil => exact ⟨bytes, rfl, rfl, fun n => by simp [specNodeScore]⟩
  | cons a rest ih =>
    obtain ⟨b1, h1, hlen1, hnth1⟩ := processAccess_spec isC find a bytes
      (hc a (List.mem_cons_self a rest)) (hw a (List.mem_cons_self a rest))
      (hbnd a (List.mem_cons_self a rest))
    obtain ⟨b2, h2, hlen2, hnth2⟩ := ih b1
      (fun x hx => hc x (List.mem_cons_of_mem a hx))
      (fun x hx => hw x (List.mem_cons_of_mem a hx))
      (fun x hx => hlen1 ▸ hbnd x (List.mem_cons_of_mem a hx))
    refine ⟨b2, ?_, by rw [hlen2, hlen1], fun n => ?_⟩
    · unfold scanAccesses
      rw [h1]
      exact h2
    · rw [hnth2 n, hnth1 n, specNodeScore_cons]
      omega

theorem scanAccesses_notCluster (isC : Region → Bool) (find : Region → List HomeMapEntry)
    (accesses : List DataAccess) (bytes : List Nat)
    (hw : ∀ a ∈ accesses, a.location = none → a.weak = true)
    (hbnd : ∀ a ∈ accesses, accessIdsBounded find bytes.length a = true)
    (hex : ∃ a ∈ accesses, isC a.region = false) :
    ∃ bytes2, scanAccesses isC find accesses bytes = some (bytes2, false) := by
  induction accesses generalizing bytes with
  | nil => obtain ⟨a, ha, _⟩ := hex; exact absurd ha (List.not_mem_nil a)
  | cons a rest ih =>
    by_cases hca : isC a.region = true
    · obtain ⟨b1, h1, hlen1, _⟩ := processAccess_spec isC find a bytes hca
        (hw a (List.mem_cons_self a rest)) (hbnd a (List.mem_cons_self a rest))
      have hex2 : ∃ x ∈ rest, isC x.region = false := by
        obtain ⟨x, hx, hxc⟩ := hex
        rcases List.mem_cons.mp hx with hxa | hxr
        · subst hxa; rw [hca] at hxc; cases hxc
        · exact ⟨x, hxr, hxc⟩
      obtain ⟨b2, h2⟩ := ih b1
        (fun x hx => hw x (List.mem_cons_of_mem a hx))
        (fun x hx => hlen1 ▸ hbnd x (List.mem_cons_of_mem a hx))
        hex2
      refine ⟨b2, ?_⟩
      unfold scanAccesses
      rw [h1]
      exact h2
    · have hca2 : isC a.region = false := by
        cases h : isC a.region
        · rfl
        · exact absurd h hca
      refine ⟨bytes, ?_⟩
      unfold scanAccesses
      rw [processAccess_notCluster isC find a bytes hca2 (hw a (List.mem_cons_self a rest))]

theorem maxElementIdx_cons_cons (x y : Nat) (ys : List Nat) :
    maxElementIdx (x :: y :: ys) =
      if (maxElementIdx (y :: ys)).2 > x then
        ((maxElementIdx (y :: ys)).1 + 1, (maxElementIdx (y :: ys)).2)
      else (0, x) := rfl

theorem maxElementIdx_spec (l : List Nat) (hl : l ≠ []) :
    (maxElementIdx l).1 < l.length ∧
    nth l (maxElementIdx l).1 = (maxElementIdx l).2 ∧
    (∀ n < l.length, nth l n ≤ (maxElementIdx l).2) ∧
    (∀ m < (maxElementIdx l).1, nth l m < (maxElementIdx l).2) := by
  induction l with
  | nil => exact absurd rfl hl
  | cons x xs ih =>
    cases xs with
    | nil =>
      refine ⟨Nat.zero_lt_one, rfl, fun n hn => ?_, fun m hm => absurd hm (Nat.not_lt_zero m)⟩
      cases n with
      | zero => exact Nat.le_refl x
      | succ k => simp at hn
    | cons y ys =>
      obtain ⟨ihlt, ihval, ihmax, ihfirst⟩ := ih (by simp)
      rw [maxElementIdx_cons_cons]
      by_cases hgt : (maxElementIdx (y :: ys)).2 > x
      · rw [if_pos hgt]
        refine ⟨?_, ?_, fun n hn => ?_, fun m hm => ?_⟩
        · exact Nat.succ_lt_succ ihlt
        · exact ihval
        · cases n with
          | zero => exact Nat.le_of_lt hgt
          | succ k =>
            refine ihmax k ?_
            have hn2 : k + 1 < (y :: ys).length + 1 := by
              simpa [List.length_cons] using hn
            exact Nat.lt_of_succ_lt_succ hn2
        · cases m with
          | zero => exact hgt
          | succ k => exact ihfirst k (Nat.lt_of_succ_lt_succ hm)
      · rw [if_neg hgt]
        have hle : (maxElementIdx (y :: ys)).2 ≤ x := Nat.le_of_not_lt hgt
        refine ⟨Nat.succ_pos _, rfl, fun n hn => ?_, fun m hm => absurd hm (Nat.not_lt_zero m)⟩
        cases n with
        | zero => exact Nat.le_refl x
        | succ k =>
          refine Nat.le_trans (ihmax k ?_) hle
          have hn2 : k + 1 < (y :: ys).length + 1 := by
            simpa [List.length_cons] using hn
          exact Nat.lt_of_succ_lt_succ hn2

theorem addHomeBytes_length (region : Region) (entries : List HomeMapEntry)
    (bytes bytes2 : List Nat) (h : addHomeBytes region entries bytes = some bytes2) :
    bytes2.length = bytes.length := by
  induction entries generalizing bytes with
  | nil =>
    unfold addHomeBytes at h
    cases h
    rfl
  | cons e rest ih =>
    unfold addHomeBytes at h
    cases hab : addBytes bytes (getNodeIdForLocation e.homeNode)
        (Region.size (region.intersect e.region)) with
    | none => rw [hab] at h; cases h
    | some b1 =>
      rw [hab] at h
      rw [ih b1 h, (addBytes_spec _ _ _ _ hab).1]

theorem processLocated_length (isC : Region → Bool) (find : Region → List HomeMapEntry)
    (loc : MemoryPlace) (region : Region) (bytes bytes2 : List Nat) (b : Bool)
    (h : processLocated isC find loc region bytes = some (bytes2, b)) :
    bytes2.length = bytes.length := by
  unfold processLocated at h
  by_cases hc : isC region = true
  · rw [hc] at h
    simp only [Bool.not_true, Bool.false_eq_true, if_false] at h
    cases loc with
    | directory =>
      cases hab : addHomeBytes region (find region) bytes with
      | none => rw [hab] at h; cases h
      | some b1 =>
        rw [hab] at h
        simp only [Option.map_some'] at h
        cases h
        exact addHomeBytes_length _ _ _ _ hab
    | node i =>
      have h2 : Option.map (fun bl => (bl, true))
          (addBytes bytes (getNodeIdForLocation (.node i)) region.size) = some (bytes2, b) := h
      cases hab : addBytes bytes (getNodeIdForLocation (.node i)) region.size with
      | none => rw [hab] at h2; cases h2
      | some b1 =>
        rw [hab] at h2
        simp only [Option.map_some'] at h2
        cases h2
        exact (addBytes_spec _ _ _ _ hab).1
  · have hc2 : isC region = false := by
      cases hcc : isC region
      · rfl
      · exact absurd hcc hc
    rw [hc2] at h
    simp only [Bool.not_false, if_true] at h
    cases h
    rfl

theorem processAccess_length (isC : Region → Bool) (find : Region → List HomeMapEntry)
    (a : DataAccess) (bytes bytes2 : List Nat) (b : Bool)
    (h : processAccess isC find a bytes = some (bytes2, b)) :
    bytes2.length = bytes.length := by
  unfold processAccess at h
  cases hloc : a.location with
  | none =>
    rw [hloc] at h
    by_cases hwk : a.weak = true
    · rw [hwk] at h
      simp only [if_true] at h
      exact processLocated_length _ _ _ _ _ _ _ h
    · have hwk2 : a.weak = false := by
        cases hww : a.weak
        · rfl
        · exact absurd hww hwk
      rw [hwk2] at h
      cases h
  | some loc =>
    rw [hloc] at h
    exact processLocated_length _ _ _ _ _ _ _ h

theorem scanAccesses_length (isC : Region → Bool) (find : Region → List HomeMapEntry)
    (accesses : List DataAccess) (bytes bytes2 : List Nat) (b : Bool)
    (h : scanAccesses isC find accesses bytes = some (bytes2, b)) :
    bytes2.length = bytes.length := by
  induction accesses generalizing bytes with
  | nil =>
    unfold scanAccesses at h
    cases h
    rfl
  | cons a rest ih =>
    unfold scanAccesses at h
    cases hpa : processAccess isC find a bytes with
    | none => rw [hpa] at h; cases h
    | some p =>
      obtain ⟨b1, bb⟩ := p
      rw [hpa] at h
      cases bb with
      | false =>
        simp only at h
        cases h
        exact processAccess_length _ _ _ _ _ _ hpa
      | true =>
        simp only at h
        rw [ih b1 h, processAccess_length _ _ _ _ _ _ hpa]

/-- Core argmax lemma shared by several claims: on an all-cluster-memory
task the scheduler picks the first node with the maximal spec-side score. -/
theorem getScheduledNode_argmax_core (cs : Nat) (isC : Region → Bool)
    (find : Region → List HomeMapEntry) (accesses : List DataAccess)
    (hcs : 0 < cs)
    (hc : ∀ a ∈ accesses, isC a.region = true)
    (hw : ∀ a ∈ accesses, a.location = none → a.weak = true)
    (hbnd : ∀ a ∈ accesses, accessIdsBounded find cs a = true) :
    ∃ k, getScheduledNode cs isC find accesses = some (.node k) ∧ k < cs ∧
      (∀ n < cs, specNodeScore find accesses n ≤ specNodeScore find accesses k) ∧
      (∀ m < k, specNodeScore find accesses m < specNodeScore find accesses k) := by
  have hrep : (List.replicate cs (0 : Nat)).length = cs := by simp
  obtain ⟨bytes2, hscan, hlen, hnth⟩ := scanAccesses_spec isC find accesses
    (List.replicate cs 0) hc hw (fun a ha => by rw [hrep]; exact hbnd a ha)
  have hlen2 : bytes2.length = cs := by rw [hlen, hrep]
  have hne : bytes2 ≠ [] := by
    intro h0
    rw [h0] at hlen2
    simp at hlen2
    omega
  obtain ⟨hklt, hkval, hmax, hfirst⟩ := maxElementIdx_spec bytes2 hne
  have hscore : ∀ n, nth bytes2 n = specNodeScore find accesses n := by
    intro n
    rw [hnth n, nth_replicate]
    omega
  refine ⟨(maxElementIdx bytes2).1, ?_, hlen2 ▸ hklt, fun n hn => ?_, fun m hm => ?_⟩
  · unfold getScheduledNode
    rw [hscan]
    have hemp : bytes2.isEmpty = false := by
      cases bytes2
      · exact absurd rfl hne
      · rfl
    simp [hemp]
  · rw [← hscore n, ← hscore (maxElementIdx bytes2).1, hkval]
    exact hmax n (by rw [hlen2]; exact hn)
  · rw [← hscore m, ← hscore (maxElementIdx bytes2).1, hkval]
    exact hfirst m hm

/-- Shared helper: a task with an access outside cluster memory is not
offloaded. -/
theorem getScheduledNode_noOffload_core (cs : Nat) (isC : Region → Bool)
    (find : Region → List HomeMapEntry) (accesses : List DataAccess)
    (hw : ∀ a ∈ accesses, a.location = none → a.weak = true)
    (hbnd : ∀ a ∈ accesses, accessIdsBounded find cs a = true)
    (hex : ∃ a ∈ accesses, isC a.region = false) :
    getScheduledNode cs isC find accesses = some .noOffload := by
  obtain ⟨bytes2, hscan⟩ := scanAccesses_notCluster isC find accesses (List.replicate cs 0)
    hw (fun a ha => by simp only [List.length_replicate]; exact hbnd a ha) hex
  unfold getScheduledNode
  rw [hscan]

theorem entriesScore_total (region : Region) (entries : List HomeMapEntry) (cs : Nat)
    (hb : ∀ e ∈ entries, getNodeIdForLocation e.homeNode < cs) :
    rangeSum cs (entriesScore region entries) =
      (entries.map (fun e => Region.size (region.intersect e.region))).sum := by
  induction entries with
  | nil =>
    rw [rangeSum_congr cs _ (fun _ => 0) (fun n _ => by simp [entriesScore]), rangeSum_const_zero]
    simp
  | cons e rest ih =>
    rw [rangeSum_congr cs _ (fun n =>
        (if getNodeIdForLocation e.homeNode = n then Region.size (region.intersect e.region) else 0) +
          entriesScore region rest n) (fun n _ => entriesScore_cons region e rest n),
      rangeSum_add, rangeSum_single cs _ _ (hb e (List.mem_cons_self e rest)),
      ih (fun x hx => hb x (List.mem_cons_of_mem e hx))]
    simp

theorem accessScore_total (find : Region → List HomeMapEntry) (a : DataAccess) (cs : Nat)
    (hbnd : accessIdsBounded find cs a = true)
    (hcover : ((find a.region).map (fun e => Region.size (a.region.intersect e.region))).sum
      = a.region.size) :
    rangeSum cs (fun n => accessScore find n a) = a.region.size := by
  cases heff : effectiveLocation a with
  | directory =>
    have hstep : ∀ n, accessScore find n a = entriesScore a.region (find a.region) n := by
      intro n
      unfold accessScore
      rw [heff]
      rfl
    rw [rangeSum_congr cs _ _ (fun n _ => hstep n)]
    have hb : ∀ e ∈ find a.region, getNodeIdForLocation e.homeNode < cs := by
      intro e he
      have h2 := hbnd
      unfold accessIdsBounded at h2
      rw [heff] at h2
      simpa using List.all_eq_true.mp h2 e he
    rw [entriesScore_total a.region (find a.region) cs hb, hcover]
  | node i =>
    have hstep : ∀ n, accessScore find n a = if i = n then a.region.size else 0 := by
      intro n
      unfold accessScore
      rw [heff]
      simp [getNodeIdForLocation]
    have hi : i < cs := by
      have h2 := hbnd
      unfold accessIdsBounded at h2
      rw [heff] at h2
      simpa [getNodeIdForLocation] using h2
    rw [rangeSum_congr cs _ _ (fun n _ => hstep n), rangeSum_single cs i _ hi]

theorem specNodeScore_total (find : Region → List HomeMapEntry) (accesses : List DataAccess)
    (cs : Nat)
    (hbnd : ∀ a ∈ accesses, accessIdsBounded find cs a = true)
    (hcover : ∀ a ∈ accesses,
      ((find a.region).map (fun e => Region.size (a.region.intersect e.region))).sum
        = a.region.size) :
    rangeSum cs (specNodeScore find accesses) =
      (accesses.map (fun a => Region.size a.region)).sum := by
  induction accesses with
  | nil =>
    rw [rangeSum_congr cs _ (fun _ => 0) (fun n _ => by simp [specNodeScore]),
      rangeSum_const_zero]
    simp
  | cons a rest ih =>
    rw [rangeSum_congr cs _ (fun n => accessScore find n a + specNodeScore find rest n)
        (fun n _ => specNodeScore_cons find a rest n),
      rangeSum_add,
      accessScore_total find a cs (hbnd a (List.mem_cons_self a rest))
        (hcover a (List.mem_cons_self a rest)),
      ih (fun x hx => hbnd x (List.mem_cons_of_mem a hx))
        (fun x hx => hcover x (List.mem_cons_of_mem a hx))]
    simp

/-! ### Claim theorems for the locality scheduler -/

/-- C1: for a task all of whose accesses lie in cluster memory,
`getScheduledNode` returns the index of the node with the maximum per-node
byte score — directory-located (and null-located weak) accesses credit
each directory home-node partition's size to its home node, other accesses
credit the full region size to the node of their current location — with
ties broken by the lowest node index (first maximum); if some access lies
outside cluster memory it returns the no-offload sentinel. -/
theorem c1_scheduled_node_is_first_argmax (cs : Nat) (isC : Region → Bool)
    (find : Region → List HomeMapEntry) (accesses : List DataAccess)
    (hcs : 0 < cs)
    (hw : ∀ a ∈ accesses, a.location = none → a.weak = true)
    (hbnd : ∀ a ∈ accesses, accessIdsBounded find cs a = true) :
    ((∀ a ∈ accesses, isC a.region = true) →
      ∃ k, getScheduledNode cs isC find accesses = some (.node k) ∧ k < cs ∧
        (∀ n < cs, specNodeScore find accesses n ≤ specNodeScore find accesses k) ∧
        (∀ m < k, specNodeScore find accesses m < specNodeScore find accesses k)) ∧
    ((∃ a ∈ accesses, isC a.region = false) →
      getScheduledNode cs isC find accesses = some .noOffload) :=
  ⟨fun hc => getScheduledNode_argmax_core cs isC find accesses hcs hc hw hbnd,
   fun hex => getScheduledNode_noOffload_core cs isC find accesses hw hbnd hex⟩

/-- Concrete cluster-memory predicate for the scheduler witnesses. -/
def c1IsC : Region → Bool := fun _ => true

/-- Concrete directory for the C1 witness. -/
def c1Find : Region → List HomeMapEntry := fun _ => [⟨⟨0, 1000⟩, .node 0⟩]

/-- Concrete accesses for the C1 witness: one located on node 1, one
null-located weak access resolved through the directory. -/
def c1Accesses : List DataAccess :=
  [⟨⟨0, 100⟩, some (.node 1), false⟩, ⟨⟨200, 260⟩, none, true⟩]

theorem c1_scheduled_node_is_first_argmax_witness :
    (0 < 2 ∧ (∀ a ∈ c1Accesses, a.location = none → a.weak = true) ∧
      (∀ a ∈ c1Accesses, accessIdsBounded c1Find 2 a = true) ∧
      (∀ a ∈ c1Accesses, c1IsC a.region = true)) ∧
    (∃ k, getScheduledNode 2 c1IsC c1Find c1Accesses = some (.node k) ∧ k < 2 ∧
      (∀ n < 2, specNodeScore c1Find c1Accesses n ≤ specNodeScore c1Find c1Accesses k) ∧
      (∀ m < k, specNodeScore c1Find c1Accesses m < specNodeScore c1Find c1Accesses k)) :=
  ⟨⟨by decide, by decide, by decide, by decide⟩,
    (c1_scheduled_node_is_first_argmax 2 c1IsC c1Find c1Accesses (by decide) (by decide)
      (by decide)).1 (by decide)⟩

/-- C3: for a task with all accesses in cluster memory, when the directory
partitions exactly cover each queried region, the per-node byte scores the
scheduler computes sum to the total size of the declared access regions,
and the returned node's score is maximal. -/
theorem c3_score_conservation_and_max (cs : Nat) (isC : Region → Bool)
    (find : Region → List HomeMapEntry) (accesses : List DataAccess)
    (hcs : 0 < cs)
    (hc : ∀ a ∈ accesses, isC a.region = true)
    (hw : ∀ a ∈ accesses, a.location = none → a.weak = true)
    (hbnd : ∀ a ∈ accesses, accessIdsBounded find cs a = true)
    (hcover : ∀ a ∈ accesses,
      ((find a.region).map (fun e => Region.size (a.region.intersect e.region))).sum
        = a.region.size) :
    ∃ bytes2, scanAccesses isC find accesses (List.replicate cs 0) = some (bytes2, true) ∧
      (∀ n, nth bytes2 n = specNodeScore find accesses n) ∧
      rangeSum cs (nth bytes2) = (accesses.map (fun a => Region.size a.region)).sum ∧
      ∃ k, getScheduledNode cs isC find accesses = some (.node k) ∧ k < cs ∧
        ∀ n < cs, nth bytes2 n ≤ nth bytes2 k := by
  have hrep : (List.replicate cs (0 : Nat)).length = cs := by simp
  obtain ⟨bytes2, hscan, hlen, hnth⟩ := scanAccesses_spec isC find accesses
    (List.replicate cs 0) hc hw (fun a ha => by rw [hrep]; exact hbnd a ha)
  have hscore : ∀ n, nth bytes2 n = specNodeScore find accesses n := by
    intro n
    rw [hnth n, nth_replicate]
    omega
  have hcons : rangeSum cs (nth bytes2) = (accesses.map (fun a => Region.size a.region)).sum := by
    rw [rangeSum_congr cs _ _ (fun n _ => hscore n)]
    exact specNodeScore_total find accesses cs hbnd hcover
  have hlen2 : bytes2.length = cs := by rw [hlen, hrep]
  have hne : bytes2 ≠ [] := by
    intro h0
    rw [h0] at hlen2
    simp at hlen2
    omega
  obtain ⟨hklt, hkval, hmax, _⟩ := maxElementIdx_spec bytes2 hne
  refine ⟨bytes2, hscan, hscore, hcons, (maxElementIdx bytes2).1, ?_, hlen2 ▸ hklt,
    fun n hn => ?_⟩
  · unfold getScheduledNode
    rw [hscan]
    have hemp : bytes2.isEmpty = false := by
      cases bytes2
      · exact absurd rfl hne
      · rfl
    simp [hemp]
  · rw [hkval]
    exact hmax n (by rw [hlen2]; exact hn)

/-- Concrete cluster-memory predicate for the C3 witness. -/
def c3IsC : Region → Bool := fun _ => true

/-- Concrete directory for the C3 witness; it covers every queried region. -/
def c3Find : Region → List HomeMapEntry := fun _ => [⟨⟨0, 1000⟩, .node 0⟩]

/-- Concrete accesses for the C3 witness. -/
def c3Accesses : List DataAccess :=
  [⟨⟨0, 100⟩, some (.node 1), false⟩, ⟨⟨200, 260⟩, none, true⟩]

theorem c3_score_conservation_and_max_witness :
    (0 < 2 ∧ (∀ a ∈ c3Accesses, c3IsC a.region = true) ∧
      (∀ a ∈ c3Accesses, a.location = none → a.weak = true) ∧
      (∀ a ∈ c3Accesses, accessIdsBounded c3Find 2 a = true) ∧
      (∀ a ∈ c3Accesses,
        ((c3Find a.region).map (fun e => Region.size (a.region.intersect e.region))).sum
          = a.region.size)) ∧
    (∃ bytes2, scanAccesses c3IsC c3Find c3Accesses (List.replicate 2 0) = some (bytes2, true) ∧
      (∀ n, nth bytes2 n = specNodeScore c3Find c3Accesses n) ∧
      rangeSum 2 (nth bytes2) = (c3Accesses.map (fun a => Region.size a.region)).sum ∧
      ∃ k, getScheduledNode 2 c3IsC c3Find c3Accesses = some (.node k) ∧ k < 2 ∧
        ∀ n < 2, nth bytes2 n ≤ nth bytes2 k) :=
  ⟨⟨by decide, by decide, by decide, by decide, by decide⟩,
    c3_score_conservation_and_max 2 c3IsC c3Find c3Accesses (by decide) (by decide) (by decide)
      (by decide) (by decide)⟩

/-- C9: an access whose recorded location is null is processed exactly as
if it were located at the directory sentinel — its region is split into
the directory's home-node partitions, crediting each partition's
intersection size to its home node — and the source asserts that a null
location occurs only for weak accesses, so a null-located non-weak access
is an assertion failure. -/
theorem c9_null_location_scored_as_directory (isC : Region → Bool)
    (find : Region → List HomeMapEntry) (a : DataAccess) (bytes : List Nat)
    (hnull : a.location = none) :
    (a.weak = true →
      processAccess isC find a bytes =
        processAccess isC find { a with location := some .directory } bytes) ∧
    (a.weak = true → isC a.region = true →
      (∀ e ∈ find a.region, getNodeIdForLocation e.homeNode < bytes.length) →
      ∃ bytes2, processAccess isC find a bytes = some (bytes2, true) ∧
        ∀ n, nth bytes2 n = nth bytes n + entriesScore a.region (find a.region) n) ∧
    (a.weak = false → processAccess isC find a bytes = none) := by
  refine ⟨fun hwk => ?_, fun hwk hc hb => ?_, fun hwk => ?_⟩
  · simp [processAccess, hnull, hwk]
  · obtain ⟨bytes2, h2, _, hnth⟩ := processLocated_directory_spec isC find a.region bytes hc hb
    refine ⟨bytes2, ?_, hnth⟩
    simp [processAccess, hnull, hwk, h2]
  · simp [processAccess, hnull, hwk]

/-- Concrete cluster-memory predicate for the C9 witness. -/
def c9IsC : Region → Bool := fun _ => true

/-- Concrete directory for the C9 witness. -/
def c9Find : Region → List HomeMapEntry := fun _ => [⟨⟨0, 1000⟩, .node 1⟩]

/-- Concrete null-located weak access for the C9 witness. -/
def c9Access : DataAccess := ⟨⟨0, 100⟩, none, true⟩

theorem c9_null_location_scored_as_directory_witness :
    c9Access.location = none ∧
    ((c9Access.weak = true →
      processAccess c9IsC c9Find c9Access [0, 0] =
        processAccess c9IsC c9Find { c9Access with location := some .directory } [0, 0]) ∧
    (c9Access.weak = true → c9IsC c9Access.region = true →
      (∀ e ∈ c9Find c9Access.region,
        getNodeIdForLocation e.homeNode < ([0, 0] : List Nat).length) →
      ∃ bytes2, processAccess c9IsC c9Find c9Access [0, 0] = some (bytes2, true) ∧
        ∀ n, nth bytes2 n = nth [0, 0] n +
          entriesScore c9Access.region (c9Find c9Access.region) n) ∧
    (c9Access.weak = false → processAccess c9IsC c9Find c9Access [0, 0] = none)) :=
  ⟨rfl, c9_null_location_scored_as_directory c9IsC c9Find c9Access [0, 0] rfl⟩

/-! ### Claim theorems for the workflow steps -/

/-- C2: evaluation of the data-link step at a run where the step starts
with only read satisfiability and write satisfiability is linked
afterwards.  The step starts (bytes left to link 100), then `linkRegion`
brings `_bytesToLink` to 0 with `_started = true` and computes
`deleteStep = true`, yet the step is still not destroyed: the
`delete this` in `linkRegion` is commented out in the source, so the
branch that observes the counter reach zero does not destroy the step. -/
theorem c2_linkRegion_observes_zero_but_never_deletes :
    linkStepStart
        { bytesToLink := 200, started := false, read := true, write := false,
          regionSize := 100, deleted := false } =
      { bytesToLink := 100, started := true, read := true, write := false,
        regionSize := 100, deleted := false } ∧
    linkRegion false true 100
        { bytesToLink := 100, started := true, read := true, write := false,
          regionSize := 100, deleted := false } =
      ({ bytesToLink := 0, started := true, read := true, write := false,
         regionSize := 100, deleted := false }, true) := by
  constructor
  · rfl
  · rfl

/-- C4: a copy step created with `needsTransfer` whose writeID is found
locally by `checkWriteIDLocal` issues no fetch: it updates the task's
access location for the full region to the target node, releases the
successors, destroys the step and returns false. -/
theorem c4_late_writeID_cancels_fetch (writeIDLocal : Bool) (pending : List PendingTransfer)
    (s : CopyStepState) (hn : s.needsTransfer = true) (hw : writeIDLocal = true) :
    requiresDataFetch writeIDLocal pending s =
      { locationUpdate := some (s.fullRegion, s.targetIdx),
        releasedSuccessors := true, deletedStep := true,
        callbackOn := none, result := false } := by
  subst hw
  unfold requiresDataFetch
  rw [hn]
  simp

/-- Concrete copy step for the C4 witness. -/
def c4Step : CopyStepState := ⟨⟨0, 10000⟩, 0, true, false⟩

theorem c4_late_writeID_cancels_fetch_witness :
    (c4Step.needsTransfer = true ∧ (true : Bool) = true) ∧
    requiresDataFetch true [] c4Step =
      { locationUpdate := some (c4Step.fullRegion, c4Step.targetIdx),
        releasedSuccessors := true, deletedStep := true,
        callbackOn := none, result := false } :=
  ⟨⟨rfl, rfl⟩, c4_late_writeID_cancels_fetch true [] c4Step rfl rfl⟩

theorem checkPendingQueue_first_match (pred : PendingTransfer → Bool)
    (pending : List PendingTransfer) (hex : ∃ dt ∈ pending, pred dt = true) :
    ∃ i dt, pending.get? i = some dt ∧ pred dt = true ∧
      checkPendingQueue pred pending = some i := by
  induction pending with
  | nil =>
    obtain ⟨dt, h, _⟩ := hex
    exact absurd h (List.not_mem_nil dt)
  | cons d rest ih =>
    by_cases hd : pred d = true
    · exact ⟨0, d, rfl, hd, by simp [checkPendingQueue, hd]⟩
    · have hex2 : ∃ dt ∈ rest, pred dt = true := by
        obtain ⟨dt, hm, hp⟩ := hex
        rcases List.mem_cons.mp hm with h1 | h2
        · subst h1; exact absurd hp hd
        · exact ⟨dt, h2, hp⟩
      obtain ⟨i, dt, hget, hp, hq⟩ := ih hex2
      exact ⟨i + 1, dt, hget, hp, by simp [checkPendingQueue, hd, hq]⟩

/-- C5: when a copy step that still needs a transfer (no local writeID
match) scans the pending-transfer queue and some pending transfer has this
node as target and fully contains the step's full region, the step
registers a completion callback on that transfer — which on completion
updates the access location to the target node, releases the successors
and destroys the step — and `requiresDataFetch` returns false, so no new
fetch is issued. -/
theorem c5_contained_pending_transfer_coalesces (writeIDLocal : Bool)
    (pending : List PendingTransfer) (s : CopyStepState)
    (hn : s.needsTransfer = true) (hw : writeIDLocal = false)
    (hr : s.registerLocation = false)
    (hex : ∃ dt ∈ pending, dt.targetIdx = s.targetIdx ∧
      s.fullRegion.fullyContainedIn dt.region = true) :
    ∃ i dt, pending.get? i = some dt ∧ dt.targetIdx = s.targetIdx ∧
      s.fullRegion.fullyContainedIn dt.region = true ∧
      requiresDataFetch writeIDLocal pending s =
        { locationUpdate := none, releasedSuccessors := false, deletedStep := false,
          callbackOn := some i, result := false } ∧
      registeredCopyCallback s =
        { locationUpdate := some (s.fullRegion, s.targetIdx),
          releasesSuccessors := true, deletesStep := true } := by
  have hex2 : ∃ dt ∈ pending, pendingMatches s dt = true := by
    obtain ⟨dt, hm, h1, h2⟩ := hex
    exact ⟨dt, hm, by simp [pendingMatches, h1, h2]⟩
  obtain ⟨i, dt, hget, hp, hq⟩ := checkPendingQueue_first_match (pendingMatches s) pending hex2
  have hp2 : dt.targetIdx = s.targetIdx ∧ s.fullRegion.fullyContainedIn dt.region = true := by
    simpa [pendingMatches] using hp
  refine ⟨i, dt, hget, hp2.1, hp2.2, ?_, rfl⟩
  subst hw
  unfold requiresDataFetch
  rw [hn, hr]
  simp [hq]

/-- Concrete copy step for the C5 witness. -/
def c5Step : CopyStepState := ⟨⟨100, 200⟩, 3, true, false⟩

/-- Concrete pending-transfer queue for the C5 witness: the first entry
has the right target but does not contain the region, the second one
does. -/
def c5Pending : List PendingTransfer := [⟨⟨0, 50⟩, 3⟩, ⟨⟨0, 1000⟩, 3⟩]

theorem c5_contained_pending_transfer_coalesces_witness :
    (c5Step.needsTransfer = true ∧ (false : Bool) = false ∧
      c5Step.registerLocation = false ∧
      ∃ dt ∈ c5Pending, dt.targetIdx = c5Step.targetIdx ∧
        c5Step.fullRegion.fullyContainedIn dt.region = true) ∧
    (∃ i dt, c5Pending.get? i = some dt ∧ dt.targetIdx = c5Step.targetIdx ∧
      c5Step.fullRegion.fullyContainedIn dt.region = true ∧
      requiresDataFetch false c5Pending c5Step =
        { locationUpdate := none, releasedSuccessors := false, deletedStep := false,
          callbackOn := some i, result := false } ∧
      registeredCopyCallback c5Step =
        { locationUpdate := some (c5Step.fullRegion, c5Step.targetIdx),
          releasesSuccessors := true, deletesStep := true }) :=
  ⟨⟨rfl, rfl, rfl, by decide⟩,
    c5_contained_pending_transfer_coalesces false c5Pending c5Step rfl rfl rfl (by decide)⟩

theorem fragmentLoop_nil (fuel s m : Nat) : fragmentLoop fuel s s m = [] := by
  cases fuel with
  | zero => rfl
  | succ f => simp [fragmentLoop]

theorem fragmentLoop_spec (fuel : Nat) : ∀ start stop maxSize : Nat, 0 < maxSize →
    start ≤ stop → stop - start ≤ fuel →
    tiles start stop (fragmentLoop fuel start stop maxSize) = true ∧
    (∀ f ∈ fragmentLoop fuel start stop maxSize, f.size ≤ maxSize) ∧
    (fragmentLoop fuel start stop maxSize).length = (stop - start + maxSize - 1) / maxSize := by
  induction fuel with
  | zero =>
    intro start stop maxSize hm hss hf
    have heq : start = stop := by omega
    subst heq
    refine ⟨by simp [fragmentLoop, tiles], by simp [fragmentLoop], ?_⟩
    show ([] : List Region).length = (start - start + maxSize - 1) / maxSize
    rw [Nat.sub_self]
    have hlt : 0 + maxSize - 1 < maxSize := by omega
    rw [Nat.div_eq_of_lt hlt]
    rfl
  | succ f ih =>
    intro start stop maxSize hm hss hf
    by_cases hlt : start < stop
    · unfold fragmentLoop
      rw [if_pos hlt]
      by_cases hbig : stop - start > maxSize
      · rw [if_pos hbig]
        obtain ⟨iht, ihb, ihl⟩ := ih (start + maxSize) stop maxSize hm (by omega) (by omega)
        refine ⟨?_, ?_, ?_⟩
        · show (decide (start = start) && tiles (start + maxSize) stop _) = true
          simp [iht]
        · intro fr hfr
          rcases List.mem_cons.mp hfr with h1 | h2
          · subst h1
            show start + maxSize - start ≤ maxSize
            omega
          · exact ihb fr h2
        · rw [List.length_cons, ihl]
          have key : stop - start + maxSize - 1 =
              (stop - (start + maxSize) + maxSize - 1) + maxSize := by omega
          rw [key, Nat.add_div_right _ hm]
      · rw [if_neg hbig]
        rw [fragmentLoop_nil]
        refine ⟨?_, ?_, ?_⟩
        · show (decide (start = start) && tiles stop stop []) = true
          simp [tiles]
        · intro fr hfr
          rcases List.mem_cons.mp hfr with h1 | h2
          · subst h1
            show stop - start ≤ maxSize
            omega
          · simp at h2
        · show ([(⟨start, stop⟩ : Region)]).length = (stop - start + maxSize - 1) / maxSize
          have h1 : 1 * maxSize ≤ stop - start + maxSize - 1 := by omega
          have h2 : stop - start + maxSize - 1 < 2 * maxSize := by omega
          rw [Nat.div_eq_of_lt_le h1 h2]
          rfl
    · have heq : start = stop := by omega
      subst heq
      rw [fragmentLoop_nil]
      refine ⟨by simp [tiles], by simp, ?_⟩
      show ([] : List Region).length = (start - start + maxSize - 1) / maxSize
      rw [Nat.sub_self]
      have hlt2 : 0 + maxSize - 1 < maxSize := by omega
      rw [Nat.div_eq_of_lt hlt2]
      rfl

theorem fragmentLoop_single (fuel start stop m : Nat) (_hm : 0 < m)
    (h1 : 0 < stop - start) (h2 : stop - start ≤ m) (hf : 0 < fuel) :
    fragmentLoop fuel start stop m = [⟨start, stop⟩] := by
  cases fuel with
  | zero => omega
  | succ f =>
    unfold fragmentLoop
    rw [if_pos (by omega), if_neg (by omega)]
    rw [fragmentLoop_nil]

/-- C6: the copy-step constructor fragments its region into consecutive
fragments that tile the region exactly, each at most `message_max_size`
bytes, giving ceil(size / message_max_size) fragments; a region of exactly
`message_max_size` bytes yields one fragment, and one of
`message_max_size + 1` bytes yields two fragments, the second of one
byte. -/
theorem c6_constructor_fragments_region (r : Region) (maxSize : Nat) (hm : 0 < maxSize)
    (hr : r.startAddr ≤ r.endAddr) :
    tiles r.startAddr r.endAddr (fragmentRegion r maxSize) = true ∧
    (∀ f ∈ fragmentRegion r maxSize, f.size ≤ maxSize) ∧
    (fragmentRegion r maxSize).length = (r.size + maxSize - 1) / maxSize ∧
    (r.size = maxSize → (fragmentRegion r maxSize).length = 1) ∧
    (r.size = maxSize + 1 →
      fragmentRegion r maxSize =
        [⟨r.startAddr, r.startAddr + maxSize⟩, ⟨r.startAddr + maxSize, r.endAddr⟩] ∧
      Region.size ⟨r.startAddr, r.startAddr + maxSize⟩ = maxSize ∧
      Region.size ⟨r.startAddr + maxSize, r.endAddr⟩ = 1) := by
  obtain ⟨ht, hb, hl⟩ := fragmentLoop_spec r.size r.startAddr r.endAddr maxSize hm hr
    (Nat.le_refl _)
  refine ⟨ht, hb, hl, fun hsz => ?_, fun hsz => ?_⟩
  · have hsz2 : r.endAddr - r.startAddr = maxSize := hsz
    unfold fragmentRegion
    rw [hl, hsz2]
    have h1 : 1 * maxSize ≤ maxSize + maxSize - 1 := by omega
    have h2 : maxSize + maxSize - 1 < 2 * maxSize := by omega
    rw [Nat.div_eq_of_lt_le h1 h2]
  · have hstop : r.endAddr = r.startAddr + maxSize + 1 := by
      unfold Region.size at hsz
      omega
    have hfuel : r.size = maxSize + 1 := hsz
    constructor
    · unfold fragmentRegion
      rw [hfuel]
      unfold fragmentLoop
      rw [if_pos (by omega), if_pos (by omega)]
      rw [fragmentLoop_single maxSize (r.startAddr + maxSize) r.endAddr maxSize hm
        (by omega) (by omega) (by omega)]
    · constructor
      · show r.startAddr + maxSize - r.startAddr = maxSize
        omega
      · show r.endAddr - (r.startAddr + maxSize) = 1
        omega

theorem c6_constructor_fragments_region_witness :
    (0 < 4 ∧ (⟨0, 9⟩ : Region).startAddr ≤ (⟨0, 9⟩ : Region).endAddr) ∧
    (tiles 0 9 (fragmentRegion ⟨0, 9⟩ 4) = true ∧
      (∀ f ∈ fragmentRegion ⟨0, 9⟩ 4, f.size ≤ 4) ∧
      (fragmentRegion ⟨0, 9⟩ 4).length = ((⟨0, 9⟩ : Region).size + 4 - 1) / 4 ∧
      ((⟨0, 9⟩ : Region).size = 4 → (fragmentRegion ⟨0, 9⟩ 4).length = 1) ∧
      ((⟨0, 9⟩ : Region).size = 4 + 1 →
        fragmentRegion ⟨0, 9⟩ 4 = [⟨0, 0 + 4⟩, ⟨0 + 4, 9⟩] ∧
        Region.size ⟨0, 0 + 4⟩ = 4 ∧ Region.size ⟨0 + 4, 9⟩ = 1)) :=
  ⟨⟨by decide, by decide⟩, c6_constructor_fragments_region ⟨0, 9⟩ 4 (by decide) (by decide)⟩

/-! ### Claim theorems for the cluster manager and the object cache -/

/-- C7: with `cluster.disable_autowait` set, requesting early release in
autowait mode leaves the task's delayed-release discipline exactly as a
no-wait request would: no-wait. -/
theorem c7_disable_autowait_forces_no_wait :
    setEarlyRelease true .autowait = setEarlyRelease true .noWait ∧
    setEarlyRelease true .autowait = ReleasePolicy.noWait :=
  ⟨rfl, rfl⟩

theorem getScheduledNode_size_one (isC : Region → Bool) (find : Region → List HomeMapEntry)
    (accesses : List DataAccess) :
    getScheduledNode 1 isC find accesses = none ∨
    getScheduledNode 1 isC find accesses = some .noOffload ∨
    getScheduledNode 1 isC find accesses = some (.node 0) := by
  unfold getScheduledNode
  cases hscan : scanAccesses isC find accesses (List.replicate 1 0) with
  | none => exact Or.inl rfl
  | some p =>
    obtain ⟨bytes2, b⟩ := p
    cases b with
    | false => exact Or.inr (Or.inl rfl)
    | true =>
      refine Or.inr (Or.inr ?_)
      have hlen : bytes2.length = 1 := by
        rw [scanAccesses_length isC find accesses _ _ _ hscan]
        simp
      have hne : bytes2 ≠ [] := by
        intro h0
        rw [h0] at hlen
        simp at hlen
      have hemp : bytes2.isEmpty = false := by
        cases bytes2
        · exact absurd rfl hne
        · rfl
      obtain ⟨hklt, _, _, _⟩ := maxElementIdx_spec bytes2 hne
      rw [hlen] at hklt
      have hk0 : (maxElementIdx bytes2).1 = 0 := by omega
      simp [hemp, hk0]

/-- C8: with `cluster.communication = "disabled"`, initialization builds
the single-node manager: exactly one node, with index 0, that is both this
node and the master; `inClusterMode` is false; and with cluster size 1 the
scheduler can only answer no-offload or node 0 (never a remote node). -/
theorem c8_disabled_communication_single_node (msn : MessengerInfo) :
    clusterManagerInit "disabled" msn = clusterManagerSingle ∧
    (clusterManagerInit "disabled" msn).clusterSize = 1 ∧
    (clusterManagerInit "disabled" msn).clusterNodes = [⟨0, 0⟩] ∧
    (clusterManagerInit "disabled" msn).thisNodeIdx = 0 ∧
    (clusterManagerInit "disabled" msn).masterNodeIdx = 0 ∧
    (clusterManagerInit "disabled" msn).inClusterMode = false ∧
    ∀ (isC : Region → Bool) (find : Region → List HomeMapEntry) (accesses : List DataAccess),
      getScheduledNode (clusterManagerInit "disabled" msn).clusterSize isC find accesses
          = none ∨
      getScheduledNode (clusterManagerInit "disabled" msn).clusterSize isC find accesses
          = some .noOffload ∨
      getScheduledNode (clusterManagerInit "disabled" msn).clusterSize isC find accesses
          = some (.node 0) := by
  have hinit : clusterManagerInit "disabled" msn = clusterManagerSingle := by
    unfold clusterManagerInit
    simp
  refine ⟨hinit, by rw [hinit]; rfl, by rw [hinit]; rfl, by rw [hinit]; rfl,
    by rw [hinit]; rfl, by rw [hinit]; rfl, ?_⟩
  intro isC find accesses
  rw [hinit]
  exact getScheduledNode_size_one isC find accesses

/-- C10: `getNumObject` returns only the sum of the per-CPU cache
counters; allocations and frees taken through the external object cache
(the path used whenever the calling thread is not a worker thread) leave
the returned count unchanged, as does any value of the external counter. -/
theorem c10_getNumObject_ignores_external_cache (s : ObjectCacheState) (n : Nat) :
    s.getNumObject = s.cpuCounters.sum ∧
    (ObjectCacheState.newObject none s).getNumObject = s.getNumObject ∧
    (ObjectCacheState.deleteObject none s).getNumObject = s.getNumObject ∧
    ObjectCacheState.getNumObject { s with externalCounter := n } = s.getNumObject :=
  ⟨rfl, rfl, rfl, rfl⟩

end Nanos6
